import Mathlib

/-
Verification of the chess rules engine (piece model, board, move variants,
game state manager, alpha-beta search) of the philippneufeld/Chess repository.

The Python sources are shallowly embedded:
  * a board is the list of its 64 tile contents, indexed row*8+col exactly as
    the source stores tiles;
  * Python object identity of pieces is modelled by a numeric id field `pid`
    (each piece of a real game has a unique id, so `is` coincides with
    structural equality);
  * every operation that can raise (tile lookup out of bounds, the sanity
    checks of execute/undo, popping empty stacks, a missing king) returns
    `Option`, with `none` for the raised exception;
  * the mutually recursive quadruple generate_moves / try_move /
    generate_attacked_positions / generate_all_moves is stratified by an
    explicit fuel parameter counting the nesting depth of attacked-position
    computations (the nesting the source performs during castling validation
    is finite in practice; any concrete evaluation below uses enough fuel).
-/

namespace Chess

/-- Piece kinds of the source (King, Queen, Rook, Bishop, Knight, Pawn). -/
inductive Kind where
  | king | queen | rook | bishop | knight | pawn
deriving DecidableEq

/-- A chess piece: colour `black`, kind, and `pid`, modelling the Python
object identity used by the source for `is` comparisons and dict keys. -/
structure Piece where
  pid : Nat
  black : Bool
  kind : Kind
deriving DecidableEq

/-- A tile position (row, col), as the integer pairs of the source. -/
abbrev Pos := Int × Int

/-- Board.is_pos_valid: both coordinates in [0, 7]. -/
def isPosValid (p : Pos) : Bool :=
  decide (0 ≤ p.1) && decide (p.1 ≤ 7) && decide (0 ≤ p.2) && decide (p.2 ≤ 7)

/-- The list index of a tile, row*8+col, as in Board.get_tile. -/
def posIdx (p : Pos) : Nat := (p.1 * 8 + p.2).toNat

/-- A board is the list of the piece contents of its 64 tiles. -/
abbrev BoardL := List (Option Piece)

/-- Contents of the tile at a (valid) position; `none` for an empty tile
and also for an invalid position (callers guard validity where the source
would raise). -/
def pieceAt (b : BoardL) (p : Pos) : Option Piece :=
  if isPosValid p then b.getD (posIdx p) none else none

/-- Writing a tile's contents. -/
def setPiece (b : BoardL) (p : Pos) (v : Option Piece) : BoardL :=
  b.set (posIdx p) v

theorem isPosValid_iff (p : Pos) :
    isPosValid p = true ↔ 0 ≤ p.1 ∧ p.1 ≤ 7 ∧ 0 ≤ p.2 ∧ p.2 ≤ 7 := by
  simp [isPosValid, and_assoc]

theorem posIdx_lt_64 (p : Pos) (h : isPosValid p = true) : posIdx p < 64 := by
  rw [isPosValid_iff] at h
  unfold posIdx
  omega

theorem posIdx_inj (p q : Pos) (hp : isPosValid p = true) (hq : isPosValid q = true)
    (h : posIdx p = posIdx q) : p = q := by
  rw [isPosValid_iff] at hp hq
  unfold posIdx at h
  obtain ⟨p1, p2⟩ := p
  obtain ⟨q1, q2⟩ := q
  simp only [Prod.mk.injEq]
  omega

/-- List.getD after List.set at the written index. -/
theorem getD_set_self {α : Type} (l : List α) (i : Nat) (a d : α) (h : i < l.length) :
    (l.set i a).getD i d = a := by
  induction l generalizing i with
  | nil => simp at h
  | cons x xs ih =>
    cases i with
    | zero => simp [List.set, List.getD]
    | succ n =>
      simp only [List.set, List.getD] at *
      exact ih n (by simpa using h)

/-- List.getD after List.set at a different index. -/
theorem getD_set_ne {α : Type} (l : List α) (i j : Nat) (a : α) (d : α) (h : i ≠ j) :
    (l.set i a).getD j d = l.getD j d := by
  induction l generalizing i j with
  | nil => simp [List.set]
  | cons x xs ih =>
    cases i with
    | zero =>
      cases j with
      | zero => exact absurd rfl h
      | succ m => simp [List.set, List.getD]
    | succ n =>
      cases j with
      | zero => simp [List.set, List.getD]
      | succ m =>
        simp only [List.set, List.getD]
        exact ih n m (by omega)

/-- Two lists of equal length with equal getD at every index are equal. -/
theorem eq_of_getD {α : Type} (d : α) (l₁ l₂ : List α) (hlen : l₁.length = l₂.length)
    (h : ∀ k, l₁.getD k d = l₂.getD k d) : l₁ = l₂ := by
  induction l₁ generalizing l₂ with
  | nil => cases l₂ with
    | nil => rfl
    | cons y ys => simp at hlen
  | cons x xs ih =>
    cases l₂ with
    | nil => simp at hlen
    | cons y ys =>
      have h0 := h 0
      simp only [List.getD, List.get?, Option.getD_some] at h0
      have : xs = ys := ih ys (by simpa using hlen) (fun k => by
        have := h (k + 1)
        simpa [List.getD] using this)
      simp [h0, this]

/-
Move variants (chess/move.py, full version under build/lib/chess/move.py).
KillMove is GeneralKillMove with kill position equal to the destination;
PawnDoubleStepMove inherits NormalMove's execute/undo;
PawnTransformMove / PawnTransformKillMove carry the pre-built replacement
piece; CastelingMove carries the king and the side.
-/

/-- The closed variant of Move subclasses of the source. -/
inductive MoveV where
  | normal (src dst : Pos) (p : Piece)
  | doubleStep (src dst : Pos) (p : Piece)
  | kill (src dst : Pos) (p kp : Piece)
  | enPassant (src dst killPos : Pos) (p kp : Piece)
  | transform (src dst : Pos) (p tp : Piece)
  | transformKill (src dst : Pos) (p kp tp : Piece)
  | casteling (king : Piece) (queenSide : Bool)
deriving DecidableEq

/-- Move.piece: the piece a move belongs to. -/
def moverOf : MoveV → Piece
  | .normal _ _ p => p
  | .doubleStep _ _ p => p
  | .kill _ _ p _ => p
  | .enPassant _ _ _ p _ => p
  | .transform _ _ p _ => p
  | .transformKill _ _ p _ _ => p
  | .casteling k _ => k

/-- NormalMove.execute: source must hold exactly the move's piece, the
destination must be empty; then ownership is transferred. -/
def normalExec (src dst : Pos) (p : Piece) (b : BoardL) : Option BoardL :=
  if isPosValid src && isPosValid dst then
    if pieceAt b src = some p ∧ pieceAt b dst = none then
      some (setPiece (setPiece b src none) dst (some p))
    else none
  else none

/-- NormalMove.undo: destination must hold the piece, source must be empty. -/
def normalUndo (src dst : Pos) (p : Piece) (b : BoardL) : Option BoardL :=
  if isPosValid src && isPosValid dst then
    if pieceAt b dst = some p ∧ pieceAt b src = none then
      some (setPiece (setPiece b dst none) src (some p))
    else none
  else none

/-- GeneralKillMove.execute: the kill tile must hold exactly the kill piece,
and the destination tile be the kill tile itself or empty. -/
def gkExec (src dst killPos : Pos) (p kp : Piece) (b : BoardL) : Option BoardL :=
  if isPosValid src && isPosValid dst && isPosValid killPos then
    if pieceAt b src = some p ∧ pieceAt b killPos = some kp ∧
        (dst = killPos ∨ pieceAt b dst = none) then
      some (setPiece (setPiece (setPiece b src none) killPos none) dst (some p))
    else none
  else none

/-- GeneralKillMove.undo. -/
def gkUndo (src dst killPos : Pos) (p kp : Piece) (b : BoardL) : Option BoardL :=
  if isPosValid src && isPosValid dst && isPosValid killPos then
    if pieceAt b src = none ∧ pieceAt b dst = some p ∧
        (dst = killPos ∨ pieceAt b killPos = none) then
      some (setPiece (setPiece (setPiece b dst none) killPos (some kp)) src (some p))
    else none
  else none

/-- The four castling tile positions of the source, fixed by the king's
colour and the side: king e-file, rook corner, and their destinations. -/
def castleSquares (king : Piece) (queenSide : Bool) : Pos × Pos × Pos × Pos :=
  let row : Int := if king.black then 0 else 7
  ((row, 4), (row, if queenSide then 0 else 7),
   (row, if queenSide then 2 else 6), (row, if queenSide then 3 else 5))

/-- CastelingMove.execute: king on its source square, a same-coloured rook on
the rook source square, both destination squares empty; then rook and king
are moved. -/
def castelingExec (king : Piece) (queenSide : Bool) (b : BoardL) : Option BoardL :=
  let sq := castleSquares king queenSide
  let kingSrc := sq.1
  let rookSrc := sq.2.1
  let kingDst := sq.2.2.1
  let rookDst := sq.2.2.2
  match pieceAt b rookSrc with
  | some r =>
    if pieceAt b kingSrc = some king ∧ r.kind = .rook ∧ king.black = r.black ∧
        pieceAt b kingDst = none ∧ pieceAt b rookDst = none then
      some (setPiece (setPiece (setPiece (setPiece b rookDst (some r)) rookSrc none)
        kingSrc none) kingDst (some king))
    else none
  | none => none

/-- CastelingMove.undo, faithful to the source: the sanity check demands the
king and the rook on the destination squares to have DIFFERENT colours
(the source compares with !=), and the restore assigns the rook destination
tile to itself, clears it, clears the king destination tile and then puts
the king back onto the king DESTINATION tile. -/
def castelingUndo (king : Piece) (queenSide : Bool) (b : BoardL) : Option BoardL :=
  let sq := castleSquares king queenSide
  let kingSrc := sq.1
  let rookSrc := sq.2.1
  let kingDst := sq.2.2.1
  let rookDst := sq.2.2.2
  match pieceAt b rookDst with
  | some r =>
    if pieceAt b kingDst = some king ∧ r.kind = .rook ∧ king.black ≠ r.black ∧
        pieceAt b kingSrc = none ∧ pieceAt b rookSrc = none then
      some (setPiece (setPiece (setPiece (setPiece b rookDst (some r)) rookDst none)
        kingDst none) kingDst (some king))
    else none
  | none => none

/-- Move.execute over the variant. PawnTransform(Kill)Move run the inherited
execute, recheck the destination and swap in the replacement piece. -/
def execute : MoveV → BoardL → Option BoardL
  | .normal src dst p, b => normalExec src dst p b
  | .doubleStep src dst p, b => normalExec src dst p b
  | .kill src dst p kp, b => gkExec src dst dst p kp b
  | .enPassant src dst killPos p kp, b => gkExec src dst killPos p kp b
  | .transform src dst p tp, b =>
    match normalExec src dst p b with
    | some b1 => if pieceAt b1 dst = some p then some (setPiece b1 dst (some tp)) else none
    | none => none
  | .transformKill src dst p kp tp, b =>
    match gkExec src dst dst p kp b with
    | some b1 => if pieceAt b1 dst = some p then some (setPiece b1 dst (some tp)) else none
    | none => none
  | .casteling king qs, b => castelingExec king qs b

/-- Move.undo over the variant. -/
def undo : MoveV → BoardL → Option BoardL
  | .normal src dst p, b => normalUndo src dst p b
  | .doubleStep src dst p, b => normalUndo src dst p b
  | .kill src dst p kp, b => gkUndo src dst dst p kp b
  | .enPassant src dst killPos p kp, b => gkUndo src dst killPos p kp b
  | .transform src dst p tp, b =>
    if pieceAt b dst = some tp then normalUndo src dst p (setPiece b dst (some p)) else none
  | .transformKill src dst p kp tp, b =>
    if pieceAt b dst = some tp then gkUndo src dst dst p kp (setPiece b dst (some p)) else none
  | .casteling king qs, b => castelingUndo king qs b

/-
Game state manager (chess/manager.py). The mutable manager becomes a record;
the move history is stored most-recent-first (Python appends to the end and
reads moves[-1]).
-/

/-- State of the GameManager: board, history, per-piece castling counters
(an association list keyed by piece identity), turn and terminal flags,
the cached metrics and their backtracking stacks. -/
structure GMState where
  board : BoardL
  moves : List MoveV
  castleCnt : List (Piece × Int)
  blackTurn : Bool
  isGameOver : Bool
  inCheckWhite : Bool
  inCheckBlack : Bool
  attackedWhite : List Pos
  attackedBlack : List Pos
  availableMoves : List MoveV
  cachedAttacked : List (List Pos × List Pos)
  cachedCheck : List (Bool × Bool)
  cachedAvail : List (List MoveV)
deriving DecidableEq

/-- Lookup in the castling counter dict (None when the piece is not a key,
mirroring `piece in self._castle_pieces_move_cnt`). -/
def lookupCnt (l : List (Piece × Int)) (p : Piece) : Option Int :=
  (l.find? (fun e => decide (e.1 = p))).map Prod.snd

/-- The `self._is_in_check[c]` dictionary read. -/
def inCheckOf (st : GMState) (black : Bool) : Bool :=
  if black then st.inCheckBlack else st.inCheckWhite

/-- The 64 positions in the iteration order of itertools.product(range(8), range(8)). -/
def allPositions : List Pos :=
  (List.range 8).flatMap (fun r => (List.range 8).map (fun c => ((r : Int), (c : Int))))

/-- GameManager.get_king_position: first position (row-major) holding a king
of the given colour; None models the RuntimeError when there is none. -/
def getKingPos (b : BoardL) (black : Bool) : Option Pos :=
  allPositions.find? (fun pos =>
    match pieceAt b pos with
    | some p => decide (p.black = black) && decide (p.kind = Kind.king)
    | none => false)

/-- One movement basis: direction vector, maximal step count, kill level
(0 cannot kill, 1 can kill, 2 must kill). -/
structure Basis where
  vec : Pos
  maxSteps : Nat
  killLevel : Nat
deriving DecidableEq

/-- Piece.get_movement_bases of each subclass, in source order. The pawn's
forward basis reaches 2 from its base row, else 1. -/
def pieceBases (p : Piece) (pos : Pos) : List Basis :=
  match p.kind with
  | .king =>
    [(0, 1), (1, 0), (0, -1), (-1, 0), (1, 1), (1, -1), (-1, -1), (-1, 1)].map
      (fun v => ⟨v, 1, 1⟩)
  | .queen =>
    [(0, 1), (1, 0), (0, -1), (-1, 0), (1, 1), (1, -1), (-1, -1), (-1, 1)].map
      (fun v => ⟨v, 8, 1⟩)
  | .bishop => [(1, 1), (1, -1), (-1, -1), (-1, 1)].map (fun v => ⟨v, 8, 1⟩)
  | .knight =>
    [(2, -1), (2, 1), (-2, -1), (-2, 1), (1, 2), (1, -2), (-1, 2), (-1, -2)].map
      (fun v => ⟨v, 1, 1⟩)
  | .rook => [(0, 1), (1, 0), (0, -1), (-1, 0)].map (fun v => ⟨v, 8, 1⟩)
  | .pawn =>
    let baseRow : Int := if p.black then 1 else 6
    let mvDir : Int := if p.black then 1 else -1
    [⟨(mvDir, 0), if pos.1 = baseRow then 2 else 1, 0⟩,
     ⟨(mvDir, 1), 1, 2⟩, ⟨(mvDir, -1), 1, 2⟩]

/-- The i-th position along a ray. -/
def stepPos (pos : Pos) (vec : Pos) (i : Nat) : Pos :=
  (pos.1 + (i : Int) * vec.1, pos.2 + (i : Int) * vec.2)

/-- The replacement pieces a pawn promotion generates, built by
_create_piece in the order [Queen, Rook, Bishop, Knight]. Fresh Python
objects are modelled by reserved ids 9001..9004 (no board below uses them). -/
def transformPieces (black : Bool) : List Piece :=
  [⟨9001, black, .queen⟩, ⟨9002, black, .rook⟩, ⟨9003, black, .bishop⟩, ⟨9004, black, .knight⟩]

/-- The candidate move(s) emitted at one ray step onto an empty tile:
a pawn double step, the four promotion variants, or a normal move. -/
def emptyTileMoves (pos dst : Pos) (p : Piece) : List MoveV :=
  if p.kind = .pawn ∧ (dst.1 - pos.1).natAbs = 2 then
    [.doubleStep pos dst p]
  else if p.kind = .pawn ∧ dst.1 = (if p.black then 7 else 0) then
    (transformPieces p.black).map (fun tp => .transform pos dst p tp)
  else [.normal pos dst p]

/-- The candidate move(s) emitted at one ray step onto an enemy piece. -/
def killTileMoves (pos dst : Pos) (p d : Piece) : List MoveV :=
  if p.kind = .pawn ∧ dst.1 = (if p.black then 7 else 0) then
    (transformPieces p.black).map (fun tp => .transformKill pos dst p d tp)
  else [.kill pos dst p d]

/-- The ray walk of GameManager.generate_moves for one movement basis:
step i, `rem` steps remaining; it stops at the board edge or at the first
occupied tile, includes an occupied tile only for a killable enemy piece,
and emits nothing onto an empty tile when the basis must kill.
The per-candidate king-safety filter of the source is applied afterwards
by `genMovesW` (the filter never alters the walk's progression). -/
def rayCands (b : BoardL) (pos : Pos) (p : Piece) (vec : Pos) (killLevel : Nat) :
    Nat → Nat → List MoveV
  | _, 0 => []
  | i, rem + 1 =>
    let dst := stepPos pos vec i
    if isPosValid dst then
      match pieceAt b dst with
      | none =>
        if killLevel = 2 then []
        else emptyTileMoves pos dst p ++ rayCands b pos p vec killLevel (i + 1) rem
      | some d =>
        if p.black = d.black ∨ killLevel = 0 then []
        else killTileMoves pos dst p d
    else []

/-- The en-passant candidates of generate_moves: the previous history entry
must be an opposing pawn double step; for each adjacent file the stepped-over
square must be free and the killed tile must hold exactly that pawn.
These are yielded WITHOUT the try_move legality filter. -/
def enPassantCands (st : GMState) (pos : Pos) (p : Piece) : List MoveV :=
  if p.kind = .pawn ∧ pos.1 = (if p.black then 4 else 3) then
    match st.moves with
    | .doubleStep _ _ lp :: _ =>
      if lp.black ≠ p.black then
        [(pos.1, pos.2 + 1), (pos.1, pos.2 - 1)].flatMap (fun killPos =>
          let dst : Pos := (killPos.1 + (if p.black then 1 else -1), killPos.2)
          if isPosValid killPos && isPosValid dst then
            match pieceAt st.board dst, pieceAt st.board killPos with
            | none, some kp => if kp = lp then [.enPassant pos dst killPos p kp] else []
            | _, _ => []
          else [])
      else []
    | _ => []
  else []

/-- The castling candidates of generate_moves, for a king piece, one side at
a time in the order [king side, queen side]: king and identified rook must
have counter zero, the king must not be in check, and the two single-step
king moves along the path must pass try_move (short-circuited exactly as the
Python `and` chain, so try_move only runs while the flag is still true). -/
def castleTrials (tryM : GMState → MoveV → Option Bool) (st : GMState) (pos : Pos)
    (p : Piece) (queenSide : Bool) (v0 : Bool) : Option (List MoveV) :=
  match (if v0 then
      tryM st (.normal pos (pos.1, pos.2 - (if queenSide then 1 else -1)) p)
    else some false) with
  | none => none
  | some v1 =>
    match (if v1 then
        tryM st (.normal pos (pos.1, pos.2 - (if queenSide then 2 else -2)) p)
      else some false) with
    | none => none
    | some v2 => some (if v2 then [MoveV.casteling p queenSide] else [])

def castleCandsW (tryM : GMState → MoveV → Option Bool) (st : GMState) (pos : Pos)
    (p : Piece) (queenSide : Bool) : Option (List MoveV) :=
  let row : Int := if p.black then 0 else 7
  let kingOriginal :=
    match lookupCnt st.castleCnt p with
    | some n => decide (pos = ((row, 4) : Pos)) && decide (n = 0)
    | none => false
  let rookOriginal :=
    match pieceAt st.board (row, if queenSide then 0 else 7) with
    | some r =>
      match lookupCnt st.castleCnt r with
      | some n => decide (n = 0)
      | none => false
    | none => false
  castleTrials tryM st pos p queenSide
    (kingOriginal && rookOriginal && !(inCheckOf st p.black))

/-- Sequential filtering in the Option monad (`none` when the predicate call
raises), keeping order. -/
def filterOpt {α : Type} (f : α → Option Bool) : List α → Option (List α)
  | [] => some []
  | x :: xs => do
    let b ← f x
    let r ← filterOpt f xs
    pure (if b then x :: r else r)

/-- Sequential concat-map in the Option monad. -/
def concatMapOpt {α β : Type} (f : α → Option (List β)) : List α → Option (List β)
  | [] => some []
  | x :: xs => do
    let l ← f x
    let r ← concatMapOpt f xs
    pure (l ++ r)

/-- GameManager.generate_moves, parameterised by the try_move oracle: ray
candidates per basis (filtered by try_move when check_test is on), then the
unfiltered en-passant candidates, then the castling candidates for a king.
An invalid position models get_tile's RuntimeError. -/
def kingCastleCands (tryM : GMState → MoveV → Option Bool) (st : GMState) (pos : Pos)
    (p : Piece) : Option (List MoveV) :=
  match castleCandsW tryM st pos p false with
  | none => none
  | some ks =>
    match castleCandsW tryM st pos p true with
    | none => none
    | some qs => some (ks ++ qs)

def genMovesW (tryM : GMState → MoveV → Option Bool) (st : GMState) (pos : Pos)
    (checkTest : Bool) : Option (List MoveV) :=
  if isPosValid pos then
    match pieceAt st.board pos with
    | none => some []
    | some p =>
      match filterOpt (fun m => if checkTest then tryM st m else some true)
          ((pieceBases p pos).flatMap
            (fun bs => rayCands st.board pos p bs.vec bs.killLevel 1 bs.maxSteps)) with
      | none => none
      | some kept =>
        match (if p.kind = .king then kingCastleCands tryM st pos p else some []) with
        | none => none
        | some castle => some (kept ++ enPassantCands st pos p ++ castle)
  else none

/-- GameManager.generate_all_moves for a colour: every square in row-major
order whose piece has that colour contributes its generate_moves. -/
def genAllW (genM : GMState → Pos → Bool → Option (List MoveV)) (st : GMState)
    (black : Bool) (checkTest : Bool) : Option (List MoveV) :=
  concatMapOpt (fun pos =>
    match pieceAt st.board pos with
    | some p => if p.black = black then genM st pos checkTest else some []
    | none => some []) allPositions

/-- Move.get_attack_pos, defined exactly on the GeneralKillMove family. -/
def attackPosOf : MoveV → Option Pos
  | .kill _ dst _ _ => some dst
  | .enPassant _ _ killPos _ _ => some killPos
  | .transformKill _ dst _ _ _ => some dst
  | _ => none

/-- GameManager.generate_attacked_positions: the attack positions of the
GeneralKillMove instances among the colour's unfiltered moves. -/
def attackedOfW (genAll : GMState → Bool → Bool → Option (List MoveV))
    (st : GMState) (black : Bool) : Option (List Pos) := do
  let ms ← genAll st black false
  pure (ms.filterMap attackPosOf)

/-- GameManager.try_move, parameterised by the attacked-positions oracle:
execute (exceptions caught as False), locate the mover's king, test
membership in the opponent's attacked positions on the mutated board, then
undo (whose failure, like a missing king, is an uncaught exception). -/
def tryMoveW (atk : GMState → Bool → Option (List Pos)) (st : GMState) (m : MoveV) :
    Option Bool :=
  match execute m st.board with
  | none => some false
  | some b1 =>
    match getKingPos b1 (moverOf m).black with
    | none => none
    | some kp => do
      let ps ← atk { st with board := b1 } (!(moverOf m).black)
      match undo m b1 with
      | none => none
      | some _ => pure (!decide (kp ∈ ps))

/-- The fuel-stratified attacked-positions function: level n+1 runs the
whole generation pipeline whose castling validation consults level n. -/
def attackedFuel : Nat → GMState → Bool → Option (List Pos)
  | 0, _, _ => none
  | n + 1, st, black =>
    attackedOfW (genAllW (genMovesW (tryMoveW (attackedFuel n)))) st black

/-- try_move at fuel level n. -/
def tryMoveFuel (n : Nat) : GMState → MoveV → Option Bool :=
  tryMoveW (attackedFuel n)

/-- generate_moves at fuel level n. -/
def genMovesFuel (n : Nat) : GMState → Pos → Bool → Option (List MoveV) :=
  genMovesW (tryMoveFuel n)

/-- generate_all_moves at fuel level n. -/
def genAllFuel (n : Nat) : GMState → Bool → Bool → Option (List MoveV) :=
  genAllW (genMovesFuel n)

/-- Increment a castling counter when the piece is one of its keys
(`if move.piece in self._castle_pieces_move_cnt: ... += 1`). -/
def bumpCnt (l : List (Piece × Int)) (p : Piece) : List (Piece × Int) :=
  l.map (fun e => if e.1 = p then (e.1, e.2 + 1) else e)

/-- Decrement a castling counter when the piece is one of its keys. -/
def decCnt (l : List (Piece × Int)) (p : Piece) : List (Piece × Int) :=
  l.map (fun e => if e.1 = p then (e.1, e.2 - 1) else e)

/-- The terminal report push_move prints when the new legal-move list is
empty: a win for the given colour (check mate) or a stalemate. -/
inductive GameResult where
  | checkmate (winnerBlack : Bool)
  | stalemate
deriving DecidableEq

/-- GameManager.push_move at fuel level n: execute, append to history, cache
the current metrics, flip the turn, bump the mover's castling counter,
recompute attacked positions (with the OLD check flags still in place, as
the source does), then the check flags, then the legal moves of the new
side; the terminal flag is set exactly when the new legal-move list is
empty, and the printed classification picks checkmate or stalemate by the
new side's fresh in-check flag. -/
def pushMoveF (n : Nat) (st : GMState) (m : MoveV) :
    Option (GMState × Option GameResult) := do
  let b1 ← execute m st.board
  let turn1 := !st.blackTurn
  let st1 : GMState := { st with
    board := b1
    moves := m :: st.moves
    blackTurn := turn1
    castleCnt := bumpCnt st.castleCnt (moverOf m)
    cachedAttacked := (st.attackedWhite, st.attackedBlack) :: st.cachedAttacked
    cachedCheck := (st.inCheckWhite, st.inCheckBlack) :: st.cachedCheck
    cachedAvail := st.availableMoves :: st.cachedAvail }
  let atkW ← attackedFuel n st1 false
  let atkB ← attackedFuel n st1 true
  let kW ← getKingPos b1 false
  let kB ← getKingPos b1 true
  let chkW := decide (kW ∈ atkB)
  let chkB := decide (kB ∈ atkW)
  let st3 : GMState := { st1 with
    attackedWhite := atkW
    attackedBlack := atkB
    inCheckWhite := chkW
    inCheckBlack := chkB }
  let avail ← genAllFuel n st3 turn1 true
  let over := st.isGameOver || avail.isEmpty
  let res : Option GameResult :=
    if avail.isEmpty then
      some (if (if turn1 then chkB else chkW) then .checkmate (!turn1) else .stalemate)
    else none
  pure ({ st3 with availableMoves := avail, isGameOver := over }, res)

/-- GameManager.pop_move: pop the history (None on empty), undo the move on
the board (an uncaught exception when its sanity check fails), flip the turn
back, decrement the counter, clear the terminal flag and restore the three
cached metrics by popping their stacks. -/
def popMoveF (st : GMState) : Option GMState :=
  match st.moves with
  | [] => none
  | m :: rest =>
    match undo m st.board with
    | none => none
    | some b1 =>
      match st.cachedAttacked, st.cachedCheck, st.cachedAvail with
      | (aW, aB) :: ca, (cW, cB) :: cc, av :: cv =>
        some { board := b1
               moves := rest
               castleCnt := decCnt st.castleCnt (moverOf m)
               blackTurn := !st.blackTurn
               isGameOver := false
               inCheckWhite := cW
               inCheckBlack := cB
               attackedWhite := aW
               attackedBlack := aB
               availableMoves := av
               cachedAttacked := ca
               cachedCheck := cc
               cachedAvail := cv }
      | _, _, _ => none

/-
AIPlayer.board_fitness (chess/ai.py). The float score is modelled over the
reals extended with the two infinities of numpy; the material term keeps the
source's exact formula (including the Euclidean centre distance).
-/

/-- The float score values of board_fitness: numpy's -inf, a finite value,
numpy's +inf. -/
inductive Score where
  | ninf
  | fin (x : ℝ)
  | pinf

/-- The piece_score table of board_fitness. -/
noncomputable def pieceValue : Kind → ℝ
  | .king => 0
  | .queen => 9
  | .rook => 5
  | .bishop => 3
  | .knight => 3
  | .pawn => 1

/-- The distance of a square to the board centre (3.5, 3.5). -/
noncomputable def centralityDist (pos : Pos) : ℝ :=
  Real.sqrt (((pos.1 : ℝ) - 3.5) ^ 2 + ((pos.2 : ℝ) - 3.5) ^ 2)

/-- The signed material-plus-centrality sum of board_fitness (positive for
black pieces, negative for white ones). -/
noncomputable def materialScore (b : BoardL) : ℝ :=
  (allPositions.map (fun pos =>
    match pieceAt b pos with
    | some p =>
      (if p.black then (1 : ℝ) else -1) *
        ((1 + 0.02 * (5 - centralityDist pos)) * pieceValue p.kind)
    | none => 0)).sum

/-- AIPlayer.board_fitness: the material sum, overridden to -inf or +inf for
ANY position whose is_game_over flag is set, keyed solely on whose turn it
is (the source tests only gm.is_game_over, not whether the side to move is
in check). -/
noncomputable def boardFitness (st : GMState) : Score :=
  if st.isGameOver then (if st.blackTurn then Score.ninf else Score.pinf)
  else Score.fin (materialScore st.board)

/-- An empty 64-tile board. -/
def emptyBoard : BoardL := List.replicate 64 none

/-- A board with the given pieces placed on an empty board. -/
def placePieces (l : List (Pos × Piece)) : BoardL :=
  l.foldl (fun b e => setPiece b e.1 (some e.2)) emptyBoard

/-- A manager state with the given board and history, no castling keys,
fresh flags and empty caches; used for the concrete scenarios below. -/
def mkState (b : BoardL) (hist : List MoveV) (blackTurn : Bool) : GMState :=
  { board := b
    moves := hist
    castleCnt := []
    blackTurn := blackTurn
    isGameOver := false
    inCheckWhite := false
    inCheckBlack := false
    attackedWhite := []
    attackedBlack := []
    availableMoves := []
    cachedAttacked := []
    cachedCheck := []
    cachedAvail := [] }

/-
Concrete scenarios.
-/

/-- Black king on its home square e8 for the castling round-trip scenario. -/
def bkC1 : Piece := ⟨1, true, .king⟩

/-- Black queen-side rook on a8 for the castling round-trip scenario. -/
def brC1 : Piece := ⟨2, true, .rook⟩

/-- A board holding only the black king on e8 and the black rook on a8,
with the queen-side transit squares free. -/
def bC1 : BoardL := placePieces [((0,4), bkC1), ((0,0), brC1)]

/-- Black queen-side castling. -/
def mC1 : MoveV := .casteling bkC1 true

set_option maxRecDepth 40000 in
/-- C1: the claim fails on the code. On a board where black queen-side
castling executes successfully, the subsequent undo raises (returns none)
instead of restoring the prior board: CastelingMove.undo demands king and
rook of DIFFERENT colours on the destination squares (the source compares
with !=), and its restore lines reassign the destination tiles to
themselves, so the inverse cannot restore king and rook to their sources. -/
theorem casteling_execute_undo_raises :
    (execute mC1 bC1).isSome = true ∧ (execute mC1 bC1).bind (undo mC1) = none := by
  decide

/-- White pawn on e5 (row 3, col 4). -/
def wpEP : Piece := ⟨1, false, .pawn⟩

/-- Black pawn that just double-stepped to f5 (row 3, col 5). -/
def bpEP : Piece := ⟨2, true, .pawn⟩

/-- White king on h5 (row 3, col 7), on the same rank as the two pawns. -/
def wkEP : Piece := ⟨3, false, .king⟩

/-- Black king on a8. -/
def bkEP : Piece := ⟨4, true, .king⟩

/-- Black rook on a5 (row 3, col 0), behind the two pawns. -/
def brEP : Piece := ⟨5, true, .rook⟩

/-- The discovered-check en-passant position: after the black double step
to f5, the white pawn on e5 may capture en passant; doing so removes both
pawns from rank 5 and exposes the white king on h5 to the rook on a5. -/
def stEP : GMState :=
  mkState (placePieces [((3,4), wpEP), ((3,5), bpEP), ((3,7), wkEP), ((0,0), bkEP), ((3,0), brEP)])
    [.doubleStep (1,5) (3,5) bpEP] false

/-- The en-passant capture e5xf6. -/
def mEP : MoveV := .enPassant (3,4) (2,5) (3,5) wpEP bpEP

set_option maxRecDepth 40000 in
/-- C2: the claim fails on the code. With check-testing enabled,
generate_all_moves still yields the en-passant capture (the source yields
en-passant candidates without the try_move trial), and executing it leaves
the mover's king inside the opponent's attacked-position set. -/
theorem enpassant_move_generated_leaves_king_attacked :
    mEP ∈ (genAllFuel 2 stEP false true).getD [] ∧
    (do
      let b1 ← execute mEP stEP.board
      let atk ← attackedFuel 2 { stEP with board := b1 } true
      let kp ← getKingPos b1 false
      pure (decide (kp ∈ atk))) = some true := by
  exact ⟨by decide, by decide⟩

/-- White king on e1 for the push/pop castling scenario. -/
def wkC3 : Piece := ⟨1, false, .king⟩

/-- White queen-side rook on a1. -/
def wrC3 : Piece := ⟨2, false, .rook⟩

/-- Black king on e8. -/
def bkC3 : Piece := ⟨3, true, .king⟩

/-- A position in which white queen-side castling is legal: king and rook
unmoved (counters zero), transit squares free, path unattacked. -/
def stCast : GMState :=
  { mkState (placePieces [((7,4), wkC3), ((7,0), wrC3), ((0,4), bkC3)]) [] false with
    castleCnt := [(wkC3, 0), (wrC3, 0)] }

/-- White queen-side castling. -/
def mCast : MoveV := .casteling wkC3 true

set_option maxRecDepth 40000 in
/-- C3: the claim fails on the code. In a state whose legal-move list
contains queen-side castling, push_move succeeds but the following pop_move
raises (returns none): pop's undo of the CastelingMove fails its broken
sanity check, so the pre-push state is not restored. -/
theorem push_pop_casteling_move_fails :
    mCast ∈ (genMovesFuel 2 stCast (7,4) true).getD [] ∧
    (pushMoveF 2 stCast mCast).isSome = true ∧
    ((pushMoveF 2 stCast mCast).map Prod.fst).bind popMoveF = none := by
  refine ⟨by decide, by decide, by decide⟩

/-- Black king on a8, stalemated in the scenario below. -/
def bkSM : Piece := ⟨1, true, .king⟩

/-- White queen on b6, covering a7, b7 and b8 but not a8. -/
def wqSM : Piece := ⟨2, false, .queen⟩

/-- White king on h1, far away. -/
def wkSM : Piece := ⟨3, false, .king⟩

/-- A stalemate position with black to move: black has no legal move and
black's king is not attacked, and the terminal flag is set exactly as
push_move would set it on entering this position. -/
def stSM : GMState :=
  { mkState (placePieces [((0,0), bkSM), ((2,1), wqSM), ((7,7), wkSM)]) [] true with
    isGameOver := true }

set_option maxRecDepth 40000 in
/-- C4: the claim fails on the code. The position is a stalemate: the side
to move (black) has no legal reply and its king is not attacked (white's
attacked-position set is empty). board_fitness nevertheless scores it as
minus infinity, because the source tests only is_game_over before assigning
an infinite score, whereas the claim demands the ordinary finite material
sum for stalemates. -/
theorem stalemate_scored_as_infinity :
    genAllFuel 2 stSM true true = some [] ∧ attackedFuel 2 stSM false = some [] ∧
    boardFitness stSM = Score.ninf := by
  refine ⟨by decide, by decide, by rfl⟩

/-- White king on e1 for the column-b castling scenario. -/
def wkC10 : Piece := ⟨1, false, .king⟩

/-- White queen-side rook on a1. -/
def wrC10 : Piece := ⟨2, false, .rook⟩

/-- White knight still on b1 (row 7, column 1). -/
def wnC10 : Piece := ⟨3, false, .knight⟩

/-- Black king on e8. -/
def bkC10 : Piece := ⟨4, true, .king⟩

/-- A position with the b1 square occupied by the knight while king and
queen-side rook are unmoved and c1/d1 are free. -/
def stC10 : GMState :=
  { mkState (placePieces [((7,4), wkC10), ((7,0), wrC10), ((7,1), wnC10), ((0,4), bkC10)]) [] false with
    castleCnt := [(wkC10, 0), (wrC10, 0)] }

/-- White queen-side castling. -/
def mC10 : MoveV := .casteling wkC10 true

set_option maxRecDepth 40000 in
/-- C10: with the back-rank square on column 1 occupied by a knight,
queen-side castling is still generated as a legal move and its execute
succeeds: generation and execute only ever test the squares at distance 1
and 2 from the king (columns 3 and 2), never column 1. -/
theorem queenside_castling_ignores_column_one :
    pieceAt stC10.board (7,1) = some wnC10 ∧
    mC10 ∈ (genMovesFuel 2 stC10 (7,4) true).getD [] ∧
    (execute mC10 stC10.board).isSome = true := by
  refine ⟨by decide, by decide, by decide⟩

/-
Round-trip of execute and undo for the move variants that the manager ever
passes to try_move (every variant except CastelingMove; kill-family moves
always carry a kill piece distinct from the mover, since only enemy pieces
are ever captured).
-/

theorem length_setPiece (b : BoardL) (p : Pos) (v : Option Piece) :
    (setPiece b p v).length = b.length := List.length_set b _ v

theorem pieceAt_def (b : BoardL) (p : Pos) (h : isPosValid p = true) :
    pieceAt b p = b.getD (posIdx p) none := by
  simp [pieceAt, h]

theorem pieceAt_set_self (b : BoardL) (p : Pos) (v : Option Piece)
    (hp : isPosValid p = true) (hb : posIdx p < b.length) :
    pieceAt (setPiece b p v) p = v := by
  rw [pieceAt_def _ _ hp, setPiece, getD_set_self _ _ _ _ hb]

theorem pieceAt_set_ne (b : BoardL) (p q : Pos) (v : Option Piece)
    (h : posIdx p ≠ posIdx q) :
    pieceAt (setPiece b p v) q = pieceAt b q := by
  unfold pieceAt setPiece
  by_cases hq : isPosValid q = true
  · rw [if_pos hq, if_pos hq, getD_set_ne _ _ _ _ _ h]
  · rw [if_neg hq, if_neg hq]

theorem posIdx_ne_of_pieceAt_ne (b : BoardL) (x y : Pos)
    (hx : isPosValid x = true) (hy : isPosValid y = true)
    (h : pieceAt b x ≠ pieceAt b y) : posIdx x ≠ posIdx y := by
  intro he
  exact h (by rw [pieceAt_def _ _ hx, pieceAt_def _ _ hy, he])

/-- Reverting a tile write: writing back the old value is the identity. -/
theorem set_set_restore {α : Type} (l : List α) (i : Nat) (v w d : α)
    (hi : i < l.length) (hv : l.getD i d = v) : (l.set i w).set i v = l := by
  apply eq_of_getD d
  · simp
  · intro k
    by_cases hk : i = k
    · subst hk
      rw [getD_set_self _ _ _ _ (by simpa using hi), hv]
    · rw [getD_set_ne _ _ _ _ _ hk, getD_set_ne _ _ _ _ _ hk]

/-- Inversion of a successful NormalMove.execute. -/
theorem normalExec_eq {src dst : Pos} {p : Piece} {b b' : BoardL}
    (h : normalExec src dst p b = some b') :
    isPosValid src = true ∧ isPosValid dst = true ∧
    pieceAt b src = some p ∧ pieceAt b dst = none ∧
    b' = setPiece (setPiece b src none) dst (some p) := by
  unfold normalExec at h
  by_cases hv : (isPosValid src && isPosValid dst) = true
  · rw [if_pos hv] at h
    by_cases hc : pieceAt b src = some p ∧ pieceAt b dst = none
    · rw [if_pos hc] at h
      rw [Bool.and_eq_true] at hv
      exact ⟨hv.1, hv.2, hc.1, hc.2, (Option.some.inj h).symm⟩
    · rw [if_neg hc] at h
      exact absurd h (by simp)
  · rw [if_neg hv] at h
    exact absurd h (by simp)

/-- NormalMove round trip: undo after a successful execute restores the board. -/
theorem normal_roundtrip {src dst : Pos} {p : Piece} {b b' : BoardL}
    (hb : b.length = 64) (h : normalExec src dst p b = some b') :
    normalUndo src dst p b' = some b := by
  obtain ⟨hvs, hvd, hsp, hdn, rfl⟩ := normalExec_eq h
  have hsi : posIdx src < b.length := hb ▸ posIdx_lt_64 src hvs
  have hdi : posIdx dst < b.length := hb ▸ posIdx_lt_64 dst hvd
  have hne : posIdx src ≠ posIdx dst :=
    posIdx_ne_of_pieceAt_ne b src dst hvs hvd (by rw [hsp, hdn]; simp)
  have h1 : pieceAt (setPiece (setPiece b src none) dst (some p)) dst = some p :=
    pieceAt_set_self _ _ _ hvd (by rw [length_setPiece]; exact hdi)
  have h2 : pieceAt (setPiece (setPiece b src none) dst (some p)) src = none := by
    rw [pieceAt_set_ne _ _ _ _ (Ne.symm hne), pieceAt_set_self _ _ _ hvs hsi]
  unfold normalUndo
  rw [if_pos (by rw [hvs, hvd]; rfl), if_pos ⟨h1, h2⟩]
  congr 1
  unfold setPiece
  rw [set_set_restore (b.set (posIdx src) none) (posIdx dst) none (some p) none
    (by rw [List.length_set]; exact hdi)
    (by rw [getD_set_ne _ _ _ _ _ hne]; exact (pieceAt_def b dst hvd) ▸ hdn)]
  exact set_set_restore b (posIdx src) (some p) none none hsi
    ((pieceAt_def b src hvs) ▸ hsp)

/-- Collapsing two writes to the same tile index. -/
theorem set_set_same {α : Type} (l : List α) (i : Nat) (a c : α) (hi : i < l.length) :
    (l.set i a).set i c = l.set i c := by
  apply eq_of_getD a
  · simp
  · intro k
    by_cases hk : i = k
    · subst hk
      rw [getD_set_self _ _ _ _ (by simpa using hi), getD_set_self _ _ _ _ hi]
    · rw [getD_set_ne _ _ _ _ _ hk, getD_set_ne _ _ _ _ _ hk, getD_set_ne _ _ _ _ _ hk]

/-- Inversion of a successful GeneralKillMove.execute. -/
theorem gkExec_eq {src dst killPos : Pos} {p kp : Piece} {b b' : BoardL}
    (h : gkExec src dst killPos p kp b = some b') :
    isPosValid src = true ∧ isPosValid dst = true ∧ isPosValid killPos = true ∧
    pieceAt b src = some p ∧ pieceAt b killPos = some kp ∧
    (dst = killPos ∨ pieceAt b dst = none) ∧
    b' = setPiece (setPiece (setPiece b src none) killPos none) dst (some p) := by
  unfold gkExec at h
  by_cases hv : (isPosValid src && isPosValid dst && isPosValid killPos) = true
  · rw [if_pos hv] at h
    by_cases hc : pieceAt b src = some p ∧ pieceAt b killPos = some kp ∧
        (dst = killPos ∨ pieceAt b dst = none)
    · rw [if_pos hc] at h
      simp only [Bool.and_eq_true] at hv
      exact ⟨hv.1.1, hv.1.2, hv.2, hc.1, hc.2.1, hc.2.2, (Option.some.inj h).symm⟩
    · rw [if_neg hc] at h
      exact absurd h (by simp)
  · rw [if_neg hv] at h
    exact absurd h (by simp)

/-- GeneralKillMove round trip, for a kill piece distinct from the mover
(always the case for generated captures, which only target enemy pieces). -/
theorem gk_roundtrip {src dst killPos : Pos} {p kp : Piece} {b b' : BoardL}
    (hb : b.length = 64) (hpk : p ≠ kp) (h : gkExec src dst killPos p kp b = some b') :
    gkUndo src dst killPos p kp b' = some b := by
  obtain ⟨hvs, hvd, hvk, hsp, hkp, hd, rfl⟩ := gkExec_eq h
  have hsi : posIdx src < b.length := hb ▸ posIdx_lt_64 src hvs
  have hdi : posIdx dst < b.length := hb ▸ posIdx_lt_64 dst hvd
  have hki : posIdx killPos < b.length := hb ▸ posIdx_lt_64 killPos hvk
  have hsk : posIdx src ≠ posIdx killPos :=
    posIdx_ne_of_pieceAt_ne b src killPos hvs hvk (by rw [hsp, hkp]; simp [hpk])
  by_cases hdk : dst = killPos
  · subst hdk
    have hsd : posIdx src ≠ posIdx dst := hsk
    have hbeq : setPiece (setPiece (setPiece b src none) dst none) dst (some p) =
        setPiece (setPiece b src none) dst (some p) := by
      unfold setPiece
      exact set_set_same _ _ _ _ (by rw [List.length_set]; exact hdi)
    rw [hbeq]
    have h1 : pieceAt (setPiece (setPiece b src none) dst (some p)) src = none := by
      rw [pieceAt_set_ne _ _ _ _ (Ne.symm hsd), pieceAt_set_self _ _ _ hvs hsi]
    have h2 : pieceAt (setPiece (setPiece b src none) dst (some p)) dst = some p :=
      pieceAt_set_self _ _ _ hvd (by rw [length_setPiece]; exact hdi)
    unfold gkUndo
    rw [if_pos (by simp [hvs, hvd, hvk]), if_pos ⟨h1, h2, Or.inl rfl⟩]
    congr 1
    unfold setPiece
    rw [set_set_same _ _ _ _ (by simp only [List.length_set]; exact hdi),
      set_set_restore (b.set (posIdx src) none) (posIdx dst) (some kp) (some p) none
        (by rw [List.length_set]; exact hdi)
        (by rw [getD_set_ne _ _ _ _ _ hsk]; exact (pieceAt_def b dst hvk) ▸ hkp)]
    exact set_set_restore b (posIdx src) (some p) none none hsi
      ((pieceAt_def b src hvs) ▸ hsp)
  · have hdn : pieceAt b dst = none := hd.resolve_left hdk
    have hsd : posIdx src ≠ posIdx dst :=
      posIdx_ne_of_pieceAt_ne b src dst hvs hvd (by rw [hsp, hdn]; simp)
    have hdkidx : posIdx dst ≠ posIdx killPos :=
      posIdx_ne_of_pieceAt_ne b dst killPos hvd hvk (by rw [hdn, hkp]; simp)
    have h1 : pieceAt (setPiece (setPiece (setPiece b src none) killPos none) dst (some p))
        src = none := by
      rw [pieceAt_set_ne _ _ _ _ (Ne.symm hsd), pieceAt_set_ne _ _ _ _ (Ne.symm hsk),
        pieceAt_set_self _ _ _ hvs hsi]
    have h2 : pieceAt (setPiece (setPiece (setPiece b src none) killPos none) dst (some p))
        dst = some p :=
      pieceAt_set_self _ _ _ hvd (by rw [length_setPiece, length_setPiece]; exact hdi)
    have h3 : pieceAt (setPiece (setPiece (setPiece b src none) killPos none) dst (some p))
        killPos = none := by
      rw [pieceAt_set_ne _ _ _ _ hdkidx,
        pieceAt_set_self _ _ _ hvk (by rw [length_setPiece]; exact hki)]
    unfold gkUndo
    rw [if_pos (by simp [hvs, hvd, hvk]), if_pos ⟨h1, h2, Or.inr h3⟩]
    congr 1
    unfold setPiece
    rw [set_set_restore ((b.set (posIdx src) none).set (posIdx killPos) none) (posIdx dst)
        none (some p) none
        (by simp only [List.length_set]; exact hdi)
        (by rw [getD_set_ne _ _ _ _ _ (Ne.symm hdkidx), getD_set_ne _ _ _ _ _ hsd]
            exact (pieceAt_def b dst hvd) ▸ hdn),
      set_set_restore (b.set (posIdx src) none) (posIdx killPos) (some kp) none none
        (by rw [List.length_set]; exact hki)
        (by rw [getD_set_ne _ _ _ _ _ hsk]; exact (pieceAt_def b killPos hvk) ▸ hkp)]
    exact set_set_restore b (posIdx src) (some p) none none hsi
      ((pieceAt_def b src hvs) ▸ hsp)

/-- PawnTransformMove round trip. -/
theorem transform_roundtrip {src dst : Pos} {p tp : Piece} {b b' : BoardL}
    (hb : b.length = 64) (h : execute (.transform src dst p tp) b = some b') :
    undo (.transform src dst p tp) b' = some b := by
  simp only [execute] at h
  cases hE : normalExec src dst p b with
  | none => rw [hE] at h; dsimp only at h; exact absurd h (by simp)
  | some b1 =>
    rw [hE] at h
    dsimp only at h
    by_cases hp1 : pieceAt b1 dst = some p
    · rw [if_pos hp1] at h
      have hb' : b' = setPiece b1 dst (some tp) := (Option.some.inj h).symm
      obtain ⟨hvs, hvd, hsp, hdn, hb1⟩ := normalExec_eq hE
      have hlen1 : b1.length = 64 := by
        rw [hb1]; simp only [setPiece, List.length_set]; exact hb
      have hdi1 : posIdx dst < b1.length := hlen1 ▸ posIdx_lt_64 dst hvd
      unfold undo
      rw [hb']
      dsimp only
      rw [if_pos (pieceAt_set_self b1 dst (some tp) hvd hdi1)]
      have hrestore : setPiece (setPiece b1 dst (some tp)) dst (some p) = b1 := by
        unfold setPiece
        exact set_set_restore b1 (posIdx dst) (some p) (some tp) none hdi1
          ((pieceAt_def b1 dst hvd) ▸ hp1)
      rw [hrestore]
      exact normal_roundtrip hb hE
    · rw [if_neg hp1] at h
      exact absurd h (by simp)

/-- PawnTransformKillMove round trip (kill piece distinct from the mover). -/
theorem transformKill_roundtrip {src dst : Pos} {p kp tp : Piece} {b b' : BoardL}
    (hb : b.length = 64) (hpk : p ≠ kp)
    (h : execute (.transformKill src dst p kp tp) b = some b') :
    undo (.transformKill src dst p kp tp) b' = some b := by
  simp only [execute] at h
  cases hE : gkExec src dst dst p kp b with
  | none => rw [hE] at h; dsimp only at h; exact absurd h (by simp)
  | some b1 =>
    rw [hE] at h
    dsimp only at h
    by_cases hp1 : pieceAt b1 dst = some p
    · rw [if_pos hp1] at h
      have hb' : b' = setPiece b1 dst (some tp) := (Option.some.inj h).symm
      obtain ⟨hvs, hvd, hvk, hsp, hkp, hd, hb1⟩ := gkExec_eq hE
      have hlen1 : b1.length = 64 := by
        rw [hb1]; simp only [setPiece, List.length_set]; exact hb
      have hdi1 : posIdx dst < b1.length := hlen1 ▸ posIdx_lt_64 dst hvd
      unfold undo
      rw [hb']
      dsimp only
      rw [if_pos (pieceAt_set_self b1 dst (some tp) hvd hdi1)]
      have hrestore : setPiece (setPiece b1 dst (some tp)) dst (some p) = b1 := by
        unfold setPiece
        exact set_set_restore b1 (posIdx dst) (some p) (some tp) none hdi1
          ((pieceAt_def b1 dst hvd) ▸ hp1)
      rw [hrestore]
      exact gk_roundtrip hb hpk hE
    · rw [if_neg hp1] at h
      exact absurd h (by simp)

/-- The moves the manager actually passes to try_move during legality
testing: every variant except CastelingMove, with kill-family candidates
capturing a piece other than the mover (generated captures always take an
enemy piece). -/
def isTrialCandidate : MoveV → Bool
  | .kill _ _ p kp => decide (p ≠ kp)
  | .enPassant _ _ _ p kp => decide (p ≠ kp)
  | .transformKill _ _ p kp _ => decide (p ≠ kp)
  | .casteling _ _ => false
  | _ => true

/-- Round trip of execute and undo for every trial-candidate move. -/
theorem execute_undo_roundtrip (m : MoveV) (b b' : BoardL)
    (hc : isTrialCandidate m = true) (hb : b.length = 64)
    (h : execute m b = some b') : undo m b' = some b := by
  cases m with
  | normal src dst p => exact normal_roundtrip hb h
  | doubleStep src dst p => exact normal_roundtrip hb h
  | kill src dst p kp =>
    exact gk_roundtrip hb (of_decide_eq_true hc) h
  | enPassant src dst killPos p kp =>
    exact gk_roundtrip hb (of_decide_eq_true hc) h
  | transform src dst p tp => exact transform_roundtrip hb h
  | transformKill src dst p kp tp =>
    exact transformKill_roundtrip hb (of_decide_eq_true hc) h
  | casteling k qs => exact absurd hc (by simp [isTrialCandidate])

/-- C8 claim, generic in the attacked-positions oracle: for a trial
candidate, try_move catches a failing execute and returns False without
surfacing the error; when execute succeeds, the immediately following undo
restores the exact prior board, and try_move returns True iff the mover's
king is not in the opponent's attacked-position set of the trial board. -/
theorem try_move_spec (atk : GMState → Bool → Option (List Pos)) (st : GMState) (m : MoveV)
    (hc : isTrialCandidate m = true) (hb : st.board.length = 64) :
    (execute m st.board = none → tryMoveW atk st m = some false) ∧
    (∀ b1, execute m st.board = some b1 →
      undo m b1 = some st.board ∧
      ∀ kp ps, getKingPos b1 (moverOf m).black = some kp →
        atk { st with board := b1 } (!(moverOf m).black) = some ps →
        tryMoveW atk st m = some (!decide (kp ∈ ps))) := by
  constructor
  · intro hE
    unfold tryMoveW
    rw [hE]
  · intro b1 hE
    have hundo : undo m b1 = some st.board := execute_undo_roundtrip m st.board b1 hc hb hE
    refine ⟨hundo, ?_⟩
    intro kp ps hk ha
    simp [tryMoveW, hE, hk, ha, hundo]

/-- White king used for the try_move witness scenario. -/
def wkTry : Piece := ⟨1, false, .king⟩

/-- Black king used for the try_move witness scenario. -/
def bkTry : Piece := ⟨2, true, .king⟩

/-- Kings on a1 and h8 only. -/
def stTry : GMState := mkState (placePieces [((7,0), wkTry), ((0,7), bkTry)]) [] false

/-- The white king step a1-a2 used for the try_move witness. -/
def mTry : MoveV := .normal (7,0) (6,0) wkTry

set_option maxRecDepth 10000 in
/-- Witness for the try_move specification: executing the king step on the
concrete two-king board and undoing it restores exactly the prior board. -/
theorem try_move_spec_witness :
    undo mTry ((execute mTry stTry.board).getD []) = some stTry.board :=
  ((try_move_spec (attackedFuel 1) stTry mTry (by decide) (by decide)).2
    ((execute mTry stTry.board).getD []) (by decide)).1

/-- Move.get_activation_pos: the destination square of a move (the king's
destination for castling). -/
def activationPos : MoveV → Pos
  | .normal _ dst _ => dst
  | .doubleStep _ dst _ => dst
  | .kill _ dst _ _ => dst
  | .enPassant _ dst _ _ _ => dst
  | .transform _ dst _ _ => dst
  | .transformKill _ dst _ _ _ => dst
  | .casteling k qs => (castleSquares k qs).2.2.1

theorem emptyTileMoves_mem {pos dst : Pos} {p : Piece} {m : MoveV}
    (h : m ∈ emptyTileMoves pos dst p) :
    activationPos m = dst ∧ attackPosOf m = none := by
  unfold emptyTileMoves at h
  by_cases h1 : p.kind = .pawn ∧ (dst.1 - pos.1).natAbs = 2
  · rw [if_pos h1] at h
    simp only [List.mem_singleton] at h
    subst h
    exact ⟨rfl, rfl⟩
  · rw [if_neg h1] at h
    by_cases h2 : p.kind = .pawn ∧ dst.1 = (if p.black then 7 else 0)
    · rw [if_pos h2] at h
      obtain ⟨tp, _, rfl⟩ := List.mem_map.mp h
      exact ⟨rfl, rfl⟩
    · rw [if_neg h2] at h
      simp only [List.mem_singleton] at h
      subst h
      exact ⟨rfl, rfl⟩

theorem killTileMoves_mem {pos dst : Pos} {p d : Piece} {m : MoveV}
    (h : m ∈ killTileMoves pos dst p d) :
    activationPos m = dst ∧ attackPosOf m = some dst := by
  unfold killTileMoves at h
  by_cases h2 : p.kind = .pawn ∧ dst.1 = (if p.black then 7 else 0)
  · rw [if_pos h2] at h
    obtain ⟨tp, _, rfl⟩ := List.mem_map.mp h
    exact ⟨rfl, rfl⟩
  · rw [if_neg h2] at h
    simp only [List.mem_singleton] at h
    subst h
    exact ⟨rfl, rfl⟩

/-- The full invariant of the ray walk: every emitted candidate sits at some
step j of the ray, every strictly earlier step from the start of the walk is
an empty valid tile, and the tile at j decides the emitted family: an
occupied tile must hold a killable enemy piece (kill family emitted), an
empty tile is only used when the basis need not kill (normal family). -/
theorem rayCands_mem (b : BoardL) (pos : Pos) (p : Piece) (vec : Pos) (kl : Nat) :
    ∀ (rem i : Nat) (m : MoveV), m ∈ rayCands b pos p vec kl i rem →
    ∃ j, i ≤ j ∧ j < i + rem ∧ activationPos m = stepPos pos vec j ∧
      isPosValid (stepPos pos vec j) = true ∧
      (∀ t, i ≤ t → t < j → pieceAt b (stepPos pos vec t) = none) ∧
      (match pieceAt b (stepPos pos vec j) with
       | some d => d.black ≠ p.black ∧ kl ≠ 0 ∧ attackPosOf m = some (stepPos pos vec j) ∧
           m ∈ killTileMoves pos (stepPos pos vec j) p d
       | none => kl ≠ 2 ∧ attackPosOf m = none ∧
           m ∈ emptyTileMoves pos (stepPos pos vec j) p) := by
  intro rem
  induction rem with
  | zero => intro i m hm; simp [rayCands] at hm
  | succ n ih =>
    intro i m hm
    rw [rayCands] at hm
    by_cases hv : isPosValid (stepPos pos vec i) = true
    · rw [if_pos hv] at hm
      cases hd : pieceAt b (stepPos pos vec i) with
      | none =>
        rw [hd] at hm
        dsimp only at hm
        by_cases h2 : kl = 2
        · rw [if_pos h2] at hm
          simp at hm
        · rw [if_neg h2] at hm
          rcases List.mem_append.mp hm with hm1 | hm2
          · obtain ⟨ha, hap⟩ := emptyTileMoves_mem hm1
            refine ⟨i, le_rfl, by omega, ha, hv, fun t ht1 ht2 => absurd ht1 (by omega), ?_⟩
            rw [hd]
            exact ⟨h2, hap, hm1⟩
          · obtain ⟨j, hj1, hj2, hja, hjv, hjmid, hjmatch⟩ := ih (i + 1) m hm2
            refine ⟨j, by omega, by omega, hja, hjv, ?_, hjmatch⟩
            intro t ht1 ht2
            by_cases hti : t = i
            · subst hti; exact hd
            · exact hjmid t (by omega) ht2
      | some d =>
        rw [hd] at hm
        dsimp only at hm
        by_cases hko : p.black = d.black ∨ kl = 0
        · rw [if_pos hko] at hm
          simp at hm
        · rw [if_neg hko] at hm
          push_neg at hko
          obtain ⟨ha, hap⟩ := killTileMoves_mem hm
          refine ⟨i, le_rfl, by omega, ha, hv, fun t ht1 ht2 => absurd ht1 (by omega), ?_⟩
          rw [hd]
          exact ⟨fun he => hko.1 he.symm, hko.2, hap, hm⟩
    · rw [if_neg hv] at hm
      simp at hm

/-- C7 claim: along every movement basis the ray walk of generate_moves
only emits a destination at some step j of the ray such that all earlier
steps of the walk are empty valid tiles (so nothing beyond the first
occupied tile, and the walk stops at the board edge); an occupied
destination must hold an enemy piece with capture requirement at least 1,
and an empty destination is never emitted by a must-capture basis. -/
theorem ray_walk_spec (b : BoardL) (pos : Pos) (p : Piece) (vec : Pos) (kl n : Nat)
    (m : MoveV) (h : m ∈ rayCands b pos p vec kl 1 n) :
    ∃ j, 1 ≤ j ∧ j ≤ n ∧ activationPos m = stepPos pos vec j ∧
      isPosValid (stepPos pos vec j) = true ∧
      (∀ t, 1 ≤ t → t < j → pieceAt b (stepPos pos vec t) = none) ∧
      (∀ d, pieceAt b (stepPos pos vec j) = some d → d.black ≠ p.black ∧ 1 ≤ kl) ∧
      (pieceAt b (stepPos pos vec j) = none → kl ≠ 2) := by
  obtain ⟨j, hj1, hj2, hja, hjv, hjmid, hjmatch⟩ := rayCands_mem b pos p vec kl n 1 m h
  refine ⟨j, hj1, by omega, hja, hjv, hjmid, ?_, ?_⟩
  · intro d hd
    rw [hd] at hjmatch
    exact ⟨hjmatch.1, by omega⟩
  · intro hd
    rw [hd] at hjmatch
    exact hjmatch.1

/-- White rook used for the ray-walk witness. -/
def wrRay : Piece := ⟨1, false, .rook⟩

/-- Black pawn used for the ray-walk witness. -/
def bpRay : Piece := ⟨2, true, .pawn⟩

/-- A board with the rook on e4 and a black pawn two squares to its right. -/
def bRay : BoardL := placePieces [((4,4), wrRay), ((4,6), bpRay)]

set_option maxRecDepth 10000 in
/-- Witness for the ray-walk specification, at the capture of the pawn two
steps along the rook's rightward basis. -/
theorem ray_walk_spec_witness :
    ∃ j, 1 ≤ j ∧ j ≤ 8 ∧
      activationPos (MoveV.kill (4,4) (4,6) wrRay bpRay) = stepPos (4,4) (0,1) j ∧
      isPosValid (stepPos (4,4) (0,1) j) = true ∧
      (∀ t, 1 ≤ t → t < j → pieceAt bRay (stepPos (4,4) (0,1) t) = none) ∧
      (∀ d, pieceAt bRay (stepPos (4,4) (0,1) j) = some d → d.black ≠ wrRay.black ∧ 1 ≤ 1) ∧
      (pieceAt bRay (stepPos (4,4) (0,1) j) = none → (1 : Nat) ≠ 2) :=
  ray_walk_spec bRay (4,4) wrRay (0,1) 1 8 (MoveV.kill (4,4) (4,6) wrRay bpRay) (by decide)


theorem filterOpt_subset {α : Type} (f : α → Option Bool) :
    ∀ (xs l : List α), filterOpt f xs = some l → ∀ y ∈ l, y ∈ xs := by
  intro xs
  induction xs with
  | nil =>
    intro l h y hy
    simp only [filterOpt, Option.some.injEq] at h
    subst h
    simp at hy
  | cons x xs ih =>
    intro l h y hy
    simp only [filterOpt, Option.bind_eq_bind, Option.bind_eq_some, Option.pure_def,
      Option.some.injEq] at h
    obtain ⟨b, hb, r, hr, hl⟩ := h
    subst hl
    by_cases hbt : b = true
    · subst hbt
      rw [if_pos rfl] at hy
      rcases List.mem_cons.mp hy with h1 | h1
      · subst h1; exact List.mem_cons_self _ _
      · exact List.mem_cons_of_mem _ (ih r hr y h1)
    · rw [if_neg hbt] at hy
      exact List.mem_cons_of_mem _ (ih r hr y hy)

theorem concatMapOpt_mem {α β : Type} (f : α → Option (List β)) :
    ∀ (xs : List α) (l : List β), concatMapOpt f xs = some l → ∀ y ∈ l,
      ∃ x ∈ xs, ∃ lx, f x = some lx ∧ y ∈ lx := by
  intro xs
  induction xs with
  | nil =>
    intro l h y hy
    simp only [concatMapOpt, Option.some.injEq] at h
    subst h
    simp at hy
  | cons x xs ih =>
    intro l h y hy
    simp only [concatMapOpt, Option.bind_eq_bind, Option.bind_eq_some, Option.pure_def,
      Option.some.injEq] at h
    obtain ⟨lx, hlx, r, hr, hl⟩ := h
    subst hl
    rcases List.mem_append.mp hy with hy1 | hy2
    · exact ⟨x, List.mem_cons_self _ _, lx, hlx, hy1⟩
    · obtain ⟨x', hx', lx', hlx', hy'⟩ := ih r hr y hy2
      exact ⟨x', List.mem_cons_of_mem _ hx', lx', hlx', hy'⟩

/-- Every en-passant candidate attacks a square occupied by the opposing
pawn that just double-stepped. -/
theorem enPassantCands_mem {st : GMState} {pos : Pos} {p : Piece} {m : MoveV}
    (h : m ∈ enPassantCands st pos p) :
    ∃ q d, attackPosOf m = some q ∧ pieceAt st.board q = some d ∧ d.black ≠ p.black := by
  unfold enPassantCands at h
  by_cases h1 : p.kind = .pawn ∧ pos.1 = (if p.black then 4 else 3)
  · rw [if_pos h1] at h
    cases hmv : st.moves with
    | nil => rw [hmv] at h; simp at h
    | cons last rest =>
      rw [hmv] at h
      cases last with
      | doubleStep s d lp =>
        dsimp only at h
        by_cases h2 : lp.black ≠ p.black
        · rw [if_pos h2] at h
          obtain ⟨killPos, _, hmem⟩ := List.mem_flatMap.mp h
          by_cases h3 : (isPosValid killPos && isPosValid
              ((killPos.1 + (if p.black then 1 else -1), killPos.2) : Pos)) = true
          · rw [if_pos h3] at hmem
            cases hdp : pieceAt st.board (killPos.1 + (if p.black then 1 else -1), killPos.2) with
            | some dpc =>
              rw [hdp] at hmem
              cases hkp : pieceAt st.board killPos <;> rw [hkp] at hmem <;> simp at hmem
            | none =>
              rw [hdp] at hmem
              cases hkp : pieceAt st.board killPos with
              | none => rw [hkp] at hmem; simp at hmem
              | some kp =>
                rw [hkp] at hmem
                dsimp only at hmem
                by_cases h4 : kp = lp
                · rw [if_pos h4] at hmem
                  simp only [List.mem_singleton] at hmem
                  subst hmem
                  exact ⟨killPos, kp, rfl, hkp, h4 ▸ h2⟩
                · rw [if_neg h4] at hmem
                  simp at hmem
          · rw [if_neg h3] at hmem
            simp at hmem
        · rw [if_neg h2] at h
          simp at h
      | normal s d p' => simp at h
      | kill s d p' kp' => simp at h
      | enPassant s d k p' kp' => simp at h
      | transform s d p' tp' => simp at h
      | transformKill s d p' kp' tp' => simp at h
      | casteling k qs => simp at h
  · rw [if_neg h1] at h
    simp at h

/-- Castling candidates never carry an attack position. -/
theorem castleTrials_mem {tryM : GMState → MoveV → Option Bool} {st : GMState}
    {pos : Pos} {p : Piece} {qs v0 : Bool} {l : List MoveV} {m : MoveV}
    (h : castleTrials tryM st pos p qs v0 = some l) (hm : m ∈ l) :
    m = MoveV.casteling p qs := by
  unfold castleTrials at h
  cases hA : (if v0 then
      tryM st (.normal pos (pos.1, pos.2 - (if qs then 1 else -1)) p)
    else some false) with
  | none => rw [hA] at h; exact absurd h (by simp)
  | some v1 =>
    rw [hA] at h
    dsimp only at h
    cases hB : (if v1 then
        tryM st (.normal pos (pos.1, pos.2 - (if qs then 2 else -2)) p)
      else some false) with
    | none => rw [hB] at h; exact absurd h (by simp)
    | some v2 =>
      rw [hB] at h
      dsimp only at h
      have hl := Option.some.inj h
      subst hl
      by_cases hb : v2 = true
      · rw [if_pos hb] at hm
        simp only [List.mem_singleton] at hm
        exact hm
      · rw [if_neg hb] at hm
        simp at hm

/-- Castling candidates never carry an attack position. -/
theorem castleCandsW_mem {tryM : GMState → MoveV → Option Bool} {st : GMState}
    {pos : Pos} {p : Piece} {qs : Bool} {l : List MoveV} {m : MoveV}
    (h : castleCandsW tryM st pos p qs = some l) (hm : m ∈ l) : attackPosOf m = none := by
  unfold castleCandsW at h
  have := castleTrials_mem h hm
  subst this
  rfl

theorem kingCastleCands_mem {tryM : GMState → MoveV → Option Bool} {st : GMState}
    {pos : Pos} {p : Piece} {l : List MoveV} {m : MoveV}
    (h : kingCastleCands tryM st pos p = some l) (hm : m ∈ l) : attackPosOf m = none := by
  unfold kingCastleCands at h
  cases hA : castleCandsW tryM st pos p false with
  | none => rw [hA] at h; exact absurd h (by simp)
  | some ks =>
    rw [hA] at h
    dsimp only at h
    cases hB : castleCandsW tryM st pos p true with
    | none => rw [hB] at h; exact absurd h (by simp)
    | some qs =>
      rw [hB] at h
      dsimp only at h
      have hl := Option.some.inj h
      subst hl
      rcases List.mem_append.mp hm with h1 | h1
      · exact castleCandsW_mem hA h1
      · exact castleCandsW_mem hB h1

/-- Any attack position among the moves generated from one square is a
square occupied by a piece of the colour opposite to the moving piece. -/
theorem genMovesW_attack {tryM : GMState → MoveV → Option Bool} {st : GMState}
    {pos : Pos} {ct : Bool} {l : List MoveV} {m : MoveV} {q : Pos}
    (hg : genMovesW tryM st pos ct = some l) (hm : m ∈ l) (hq : attackPosOf m = some q) :
    ∃ pc d, pieceAt st.board pos = some pc ∧ pieceAt st.board q = some d ∧
      d.black ≠ pc.black := by
  unfold genMovesW at hg
  by_cases hv : isPosValid pos = true
  · rw [if_pos hv] at hg
    cases hp : pieceAt st.board pos with
    | none =>
      rw [hp] at hg
      dsimp only at hg
      have hl := Option.some.inj hg
      subst hl
      simp at hm
    | some p =>
      rw [hp] at hg
      dsimp only at hg
      cases hk : filterOpt (fun m => if ct then tryM st m else some true)
          ((pieceBases p pos).flatMap
            (fun bs => rayCands st.board pos p bs.vec bs.killLevel 1 bs.maxSteps)) with
      | none => rw [hk] at hg; exact absurd hg (by simp)
      | some kept =>
        rw [hk] at hg
        dsimp only at hg
        cases hc : (if p.kind = .king then kingCastleCands tryM st pos p else some []) with
        | none => rw [hc] at hg; exact absurd hg (by simp)
        | some castle =>
          rw [hc] at hg
          dsimp only at hg
          have hl := Option.some.inj hg
          subst hl
          rcases List.mem_append.mp hm with hm1 | hm2
          · rcases List.mem_append.mp hm1 with hray | henp
            · have hmem := filterOpt_subset _ _ _ hk m hray
              obtain ⟨bs, _, hmb⟩ := List.mem_flatMap.mp hmem
              obtain ⟨j, _, _, _, _, _, hmatch⟩ :=
                rayCands_mem st.board pos p bs.vec bs.killLevel bs.maxSteps 1 m hmb
              cases hdj : pieceAt st.board (stepPos pos bs.vec j) with
              | none =>
                rw [hdj] at hmatch
                rw [hmatch.2.1] at hq
                exact absurd hq (by simp)
              | some d =>
                rw [hdj] at hmatch
                have hqj : q = stepPos pos bs.vec j :=
                  Option.some.inj (hq.symm.trans hmatch.2.2.1)
                exact ⟨p, d, rfl, by rw [hqj]; exact hdj, hmatch.1⟩
            · obtain ⟨q', d, hq', hd, hne⟩ := enPassantCands_mem henp
              have hqq : q = q' := Option.some.inj (hq.symm.trans hq')
              exact ⟨p, d, rfl, by rw [hqq]; exact hd, hne⟩
          · by_cases hking : p.kind = .king
            · rw [if_pos hking] at hc
              rw [kingCastleCands_mem hc hm2] at hq
              exact absurd hq (by simp)
            · rw [if_neg hking] at hc
              have hce := Option.some.inj hc
              subst hce
              simp at hm2
  · rw [if_neg hv] at hg
    exact absurd hg (by simp)

/-- Attacked positions computed by the full pipeline are squares occupied by
a piece of the colour opposite to the attacker. -/
theorem attackedOfW_occupied {tryM : GMState → MoveV → Option Bool} {st : GMState}
    {c : Bool} {ps : List Pos} {q : Pos}
    (h : attackedOfW (genAllW (genMovesW tryM)) st c = some ps) (hq : q ∈ ps) :
    ∃ d, pieceAt st.board q = some d ∧ d.black = !c := by
  unfold attackedOfW at h
  cases hga : genAllW (genMovesW tryM) st c false with
  | none => rw [hga] at h; exact absurd h (by simp)
  | some ms =>
    rw [hga] at h
    simp only [Option.bind_eq_bind, Option.some_bind, Option.pure_def,
      Option.some.injEq] at h
    subst h
    obtain ⟨m, hm, hatt⟩ := List.mem_filterMap.mp hq
    unfold genAllW at hga
    obtain ⟨pos, _, lx, hfx, hmlx⟩ := concatMapOpt_mem _ _ _ hga m hm
    cases hpp : pieceAt st.board pos with
    | none =>
      rw [hpp] at hfx
      dsimp only at hfx
      have := Option.some.inj hfx
      subst this
      simp at hmlx
    | some p =>
      rw [hpp] at hfx
      dsimp only at hfx
      by_cases hcol : p.black = c
      · rw [if_pos hcol] at hfx
        obtain ⟨pc, d, hpc, hd, hne⟩ := genMovesW_attack hfx hmlx hatt
        refine ⟨d, hd, ?_⟩
        have hpcp : pc = p := by
          rw [hpp] at hpc
          exact (Option.some.inj hpc).symm
        rw [hpcp, hcol] at hne
        cases hdb : d.black <;> cases hcc : c <;> simp_all
      · rw [if_neg hcol] at hfx
        have := Option.some.inj hfx
        subst this
        simp at hmlx

/-- C9 claim: every position produced by generate_attacked_positions(c) at
any fuel level is a square occupied by a piece of the opposing colour (the
attacked sets collect exactly the kill positions of the generated
GeneralKillMove instances, and every generated capture targets an occupied
enemy square); merely threatened empty squares are never members. -/
theorem attacked_positions_occupied (n : Nat) (st : GMState) (c : Bool)
    (ps : List Pos) (q : Pos) (h : attackedFuel n st c = some ps) (hq : q ∈ ps) :
    ∃ d, pieceAt st.board q = some d ∧ d.black = !c := by
  cases n with
  | zero => exact absurd h (by simp [attackedFuel])
  | succ n => exact attackedOfW_occupied h hq

/-- White pawn used for the attacked-positions witness. -/
def wpAtk : Piece := ⟨1, false, .pawn⟩

/-- Black pawn used for the attacked-positions witness. -/
def bpAtk : Piece := ⟨2, true, .pawn⟩

/-- A board where the white pawn on e5 can capture the black pawn on d6. -/
def stAtk : GMState := mkState (placePieces [((3,4), wpAtk), ((2,3), bpAtk)]) [] false

set_option maxRecDepth 10000 in
/-- Witness for the attacked-positions invariant: d6 is attacked by white
and indeed holds a black piece. -/
theorem attacked_positions_occupied_witness :
    ∃ d, pieceAt stAtk.board (2,3) = some d ∧ d.black = !false :=
  attacked_positions_occupied 2 stAtk false ((attackedFuel 2 stAtk false).getD [])
    (2,3) (by decide) (by decide)

/-- C6 claim: after a successful push_move from a non-terminal state, the
game is marked over exactly when the new side to move has no legal move,
and the reported result is a checkmate (won by the side that just moved)
exactly when additionally the new side's in-check flag is set, a stalemate
exactly when it is not. -/
theorem push_move_terminal_classification (n : Nat) (st : GMState) (m : MoveV)
    (r : GMState × Option GameResult) (h0 : st.isGameOver = false)
    (h : pushMoveF n st m = some r) :
    (r.1.isGameOver = true ↔ r.1.availableMoves = []) ∧
    (r.2 = some (.checkmate (!r.1.blackTurn)) ↔
      (r.1.availableMoves = [] ∧ inCheckOf r.1 r.1.blackTurn = true)) ∧
    (r.2 = some .stalemate ↔
      (r.1.availableMoves = [] ∧ inCheckOf r.1 r.1.blackTurn = false)) := by
  simp only [pushMoveF, Option.bind_eq_bind, Option.bind_eq_some, Option.pure_def,
    Option.some.injEq] at h
  obtain ⟨b1, hb1, atkW, hw, atkB, hbk, kW, hkW, kB, hkB, avail, hav, hr⟩ := h
  subst hr
  cases havail : avail with
  | nil =>
    subst havail
    constructor
    · simp [h0]
    · constructor
      · cases hst : st.blackTurn <;>
          cases hcw : decide (kW ∈ atkB) <;>
          cases hcb : decide (kB ∈ atkW) <;>
          simp_all [inCheckOf]
      · cases hst : st.blackTurn <;>
          cases hcw : decide (kW ∈ atkB) <;>
          cases hcb : decide (kB ∈ atkW) <;>
          simp_all [inCheckOf]
  | cons mv tl =>
    subst havail
    refine ⟨by simp [h0], by simp, by simp⟩

/-- White king used for the push classification witness. -/
def wkPush : Piece := ⟨1, false, .king⟩

/-- Black king used for the push classification witness. -/
def bkPush : Piece := ⟨2, true, .king⟩

/-- Kings on a1 and h8, white to move. -/
def stPush : GMState := mkState (placePieces [((7,0), wkPush), ((0,7), bkPush)]) [] false

/-- The white king step a1-b1 to be pushed. -/
def mPush : MoveV := .normal (7,0) (7,1) wkPush

/-- The state and result returned by push_move on the witness position. -/
def rPush : GMState × Option GameResult :=
  (pushMoveF 2 stPush mPush).getD (mkState [] [] false, none)

set_option maxRecDepth 40000 in
/-- Witness for the push_move terminal classification on a concrete push
that leaves black plenty of legal replies. -/
theorem push_move_terminal_classification_witness :
    (rPush.1.isGameOver = true ↔ rPush.1.availableMoves = []) ∧
    (rPush.2 = some (.checkmate (!rPush.1.blackTurn)) ↔
      (rPush.1.availableMoves = [] ∧ inCheckOf rPush.1 rPush.1.blackTurn = true)) ∧
    (rPush.2 = some .stalemate ↔
      (rPush.1.availableMoves = [] ∧ inCheckOf rPush.1 rPush.1.blackTurn = false)) :=
  push_move_terminal_classification 2 stPush mPush rPush (by decide) (by decide)

/-
AIPlayer._alphabeta (chess/ai.py). The search explores the game tree by
pushing and popping moves on the shared manager (the push/pop discipline of
section 4.4); a node of the unfolded tree carries gm.black_turn as its
maximizing flag (black maximizes), its children are the positions reached
by the moves of gm._available_moves in order, a node of a terminal position
has no children, and reaching depth 0 evaluates board_fitness, giving a
leaf. Scores live in any linear order with a bottom and a top element
standing for numpy's -inf and +inf.
-/

/-- The depth-d unfolding of the game explored by the search: leaves carry
the board_fitness value, inner nodes the side to move and the subtrees of
the available moves. -/
inductive GTree (A : Type) where
  | leaf (v : A)
  | node (maximizing : Bool) (children : List (GTree A))

mutual

/-- Modelled from the spec: the plain unpruned minimax over the same move
lists and the same leaf evaluation ("minimax and alpha-beta variants"; no
minimax routine survives in the source tree, only _alphabeta). A childless
maximizing node keeps the initial score -inf, a minimizing one +inf,
exactly like the pruned search's loop over an empty move list. -/
def minimax {A : Type} [LinearOrder A] [BoundedOrder A] : GTree A → A
  | .leaf v => v
  | .node true cs => mmMax cs
  | .node false cs => mmMin cs

/-- The running maximum of the children's minimax values, started at -inf. -/
def mmMax {A : Type} [LinearOrder A] [BoundedOrder A] : List (GTree A) → A
  | [] => ⊥
  | c :: cs => max (minimax c) (mmMax cs)

/-- The running minimum of the children's minimax values, started at +inf. -/
def mmMin {A : Type} [LinearOrder A] [BoundedOrder A] : List (GTree A) → A
  | [] => ⊤
  | c :: cs => min (minimax c) (mmMin cs)

end

mutual

/-- AIPlayer._alphabeta: at depth 0 the fitness value; otherwise the
maximizing or minimizing loop over the children with the running
(alpha, beta) window. -/
def alphabeta {A : Type} [LinearOrder A] [BoundedOrder A] : GTree A → A → A → A
  | .leaf v, _, _ => v
  | .node true cs, alpha, beta => abMax beta cs alpha ⊥
  | .node false cs, alpha, beta => abMin alpha cs beta ⊤

/-- The maximizing loop of _alphabeta: score starts at -inf; each child is
searched with the current window; the score is raised to the child's value
(`if s > score`), the loop breaks once `score > beta`, and otherwise alpha
is raised to the score before the next child. -/
def abMax {A : Type} [LinearOrder A] [BoundedOrder A] (beta : A) :
    List (GTree A) → A → A → A
  | [], _, sc => sc
  | c :: cs, alpha, sc =>
    let s := alphabeta c alpha beta
    let sc2 := max sc s
    if beta < sc2 then sc2 else abMax beta cs (max alpha sc2) sc2

/-- The minimizing loop of _alphabeta, the exact mirror: score starts at
+inf, the loop breaks once `score < alpha`, and beta is lowered. -/
def abMin {A : Type} [LinearOrder A] [BoundedOrder A] (alpha : A) :
    List (GTree A) → A → A → A
  | [], _, sc => sc
  | c :: cs, beta, sc =>
    let s := alphabeta c alpha beta
    let sc2 := min sc s
    if sc2 < alpha then sc2 else abMin alpha cs (min beta sc2) sc2

end

/-- The Knuth-Moore style contract of a fail-soft search result r against
the true value v within a window (lo, hi): exact inside the closed window,
below lo when failing low (but at least v), above hi when failing high
(but at most v). -/
def ABSpec {A : Type} [LinearOrder A] (v r lo hi : A) : Prop :=
  (lo ≤ v → v ≤ hi → r = v) ∧ (v < lo → v ≤ r ∧ r < lo) ∧ (hi < v → hi < r ∧ r ≤ v)

/-- The maximizing loop satisfies the window contract relative to the
maximum of the score accumulator and the remaining children's values. -/
theorem abMax_spec {A : Type} [LinearOrder A] [BoundedOrder A] (beta lo : A)
    (hlb : lo ≤ beta) :
    ∀ (cs : List (GTree A)) (sc : A),
      (∀ c ∈ cs, ∀ l h : A, l ≤ h → ABSpec (minimax c) (alphabeta c l h) l h) →
      sc ≤ beta →
      ABSpec (max sc (mmMax cs)) (abMax beta cs (max lo sc) sc) lo beta := by
  intro cs
  induction cs with
  | nil =>
    intro sc hcs hscb
    simp only [abMax, mmMax]
    rw [max_eq_left (bot_le : (⊥ : A) ≤ sc)]
    exact ⟨fun _ _ => rfl, fun h => ⟨le_rfl, h⟩, fun h => absurd h (not_lt.mpr hscb)⟩
  | cons c cs ih =>
    intro sc hcs hscb
    have halb : max lo sc ≤ beta := max_le hlb hscb
    have hC := hcs c (List.mem_cons_self c cs) (max lo sc) beta halb
    simp only [abMax, mmMax]
    set vc := minimax c with hvc
    set s := alphabeta c (max lo sc) beta with hsdef
    set M := mmMax cs with hM
    by_cases hcut : beta < max sc s
    · rw [if_pos hcut]
      have hs2 : max sc s = s := by
        rcases max_choice sc s with h | h
        · rw [h] at hcut; exact absurd hcut (not_lt.mpr hscb)
        · exact h
      rw [hs2] at hcut ⊢
      have hbvc : beta < vc := by
        by_contra hnb
        push_neg at hnb
        by_cases hva : vc < max lo sc
        · have hsl := (hC.2.1 hva).2
          exact absurd hcut (not_lt.mpr (le_trans (le_of_lt hsl) halb))
        · push_neg at hva
          have hse := hC.1 hva hnb
          rw [hse] at hcut
          exact absurd hcut (not_lt.mpr hnb)
      have hsvc := (hC.2.2 hbvc).2
      have hVb : beta < max sc (max vc M) :=
        lt_of_lt_of_le hbvc (le_trans (le_max_left vc M) (le_max_right sc (max vc M)))
      refine ⟨?_, ?_, ?_⟩
      · intro _ h2
        exact absurd hVb (not_lt.mpr h2)
      · intro hV
        exact absurd (lt_trans hVb hV) (not_lt.mpr hlb)
      · intro _
        exact ⟨hcut, le_trans hsvc (le_trans (le_max_left vc M) (le_max_right _ _))⟩
    · rw [if_neg hcut]
      push_neg at hcut
      have hmax2 : max (max lo sc) (max sc s) = max lo (max sc s) := by
        rw [max_assoc, ← max_assoc sc sc s, max_self]
      rw [hmax2]
      have ihspec := ih (max sc s) (fun c' hc' => hcs c' (List.mem_cons_of_mem c hc')) hcut
      by_cases hbvc : beta < vc
      · exact absurd (lt_of_lt_of_le (hC.2.2 hbvc).1 (le_max_right sc s))
          (not_lt.mpr hcut)
      · push_neg at hbvc
        by_cases hva : vc < max lo sc
        · obtain ⟨hvs, hsa⟩ := hC.2.1 hva
          refine ⟨?_, ?_, ?_⟩
          · intro h1 h2
            have hVV : max (max sc s) M = max sc (max vc M) := by
              by_cases hssc : s ≤ sc
              · rw [max_eq_left hssc, ← max_assoc, max_eq_left (le_trans hvs hssc)]
              · push_neg at hssc
                have hslo : s < lo := by
                  rcases max_choice lo sc with hch | hch
                  · rw [hch] at hsa; exact hsa
                  · rw [hch] at hsa; exact absurd hsa (not_lt.mpr (le_of_lt hssc))
                have hsclo : sc < lo := lt_trans hssc hslo
                have hvclo : vc < lo := lt_of_le_of_lt hvs hslo
                have hloM : lo ≤ M := by
                  by_contra hnM
                  push_neg at hnM
                  exact absurd h1 (not_le.mpr (max_lt hsclo (max_lt hvclo hnM)))
                rw [max_eq_right (le_of_lt hssc), max_eq_right (le_trans (le_of_lt hslo) hloM),
                  max_eq_right (le_trans (le_of_lt hvclo) hloM),
                  max_eq_right (le_trans (le_of_lt hsclo) hloM)]
            rw [hVV] at ihspec
            exact ihspec.1 h1 h2
          · intro hV
            have hsc_lo : sc < lo := lt_of_le_of_lt (le_max_left sc _) hV
            have hs_lo : s < lo := by
              rcases max_choice lo sc with hch | hch
              · rw [hch] at hsa; exact hsa
              · rw [hch] at hsa; exact lt_trans hsa hsc_lo
            have hM_lo : M < lo :=
              lt_of_le_of_lt (le_trans (le_max_right vc M) (le_max_right sc _)) hV
            obtain ⟨hr1, hr2⟩ := ihspec.2.1 (max_lt (max_lt hsc_lo hs_lo) hM_lo)
            refine ⟨?_, hr2⟩
            have hVle : max sc (max vc M) ≤ max (max sc s) M :=
              max_le (le_trans (le_max_left sc s) (le_max_left _ M))
                (max_le (le_trans hvs (le_trans (le_max_right sc s) (le_max_left _ M)))
                  (le_max_right _ _))
            exact le_trans hVle hr1
          · intro hV
            have hMb : beta < M := by
              by_contra hnM
              push_neg at hnM
              exact absurd hV (not_lt.mpr (max_le hscb
                (max_le hbvc hnM)))
            have hVM : max sc (max vc M) = M := by
              rw [max_eq_right (le_trans hbvc (le_of_lt hMb)),
                max_eq_right (le_trans hscb (le_of_lt hMb))]
            have hVM2 : max (max sc s) M = M := max_eq_right (le_trans hcut (le_of_lt hMb))
            obtain ⟨hr1, hr2⟩ := ihspec.2.2 (by rw [hVM2]; exact hMb)
            rw [hVM2] at hr2
            rw [hVM]
            exact ⟨hr1, hr2⟩
        · push_neg at hva
          have hse := hC.1 hva hbvc
          have hVV : max (max sc s) M = max sc (max vc M) := by
            rw [hse, max_assoc]
          rw [hVV] at ihspec
          exact ihspec

/-- The minimizing loop satisfies the window contract relative to the
minimum of the score accumulator and the remaining children's values. -/
theorem abMin_spec {A : Type} [LinearOrder A] [BoundedOrder A] (alpha hi : A)
    (hah : alpha ≤ hi) :
    ∀ (cs : List (GTree A)) (sc : A),
      (∀ c ∈ cs, ∀ l h : A, l ≤ h → ABSpec (minimax c) (alphabeta c l h) l h) →
      alpha ≤ sc →
      ABSpec (min sc (mmMin cs)) (abMin alpha cs (min hi sc) sc) alpha hi := by
  intro cs
  induction cs with
  | nil =>
    intro sc hcs hsca
    simp only [abMin, mmMin]
    rw [min_eq_left (le_top : sc ≤ (⊤ : A))]
    exact ⟨fun _ _ => rfl, fun h => absurd h (not_lt.mpr hsca), fun h => ⟨h, le_rfl⟩⟩
  | cons c cs ih =>
    intro sc hcs hsca
    have haminh : alpha ≤ min hi sc := le_min hah hsca
    have hC := hcs c (List.mem_cons_self c cs) alpha (min hi sc) haminh
    simp only [abMin, mmMin]
    set vc := minimax c with hvc
    set s := alphabeta c alpha (min hi sc) with hsdef
    set M := mmMin cs with hM
    by_cases hcut : min sc s < alpha
    · rw [if_pos hcut]
      have hs2 : min sc s = s := by
        rcases min_choice sc s with h | h
        · rw [h] at hcut; exact absurd hcut (not_lt.mpr hsca)
        · exact h
      rw [hs2] at hcut ⊢
      have hvca : vc < alpha := by
        by_contra hnb
        push_neg at hnb
        by_cases hva : min hi sc < vc
        · have hsl := (hC.2.2 hva).1
          exact absurd hcut (not_lt.mpr (le_trans haminh (le_of_lt hsl)))
        · push_neg at hva
          have hse := hC.1 hnb hva
          rw [hse] at hcut
          exact absurd hcut (not_lt.mpr hnb)
      have hsvc := (hC.2.1 hvca).1
      have hVa : min sc (min vc M) < alpha :=
        lt_of_le_of_lt (le_trans (min_le_right sc (min vc M)) (min_le_left vc M)) hvca
      refine ⟨?_, ?_, ?_⟩
      · intro h1 _
        exact absurd hVa (not_lt.mpr h1)
      · intro _
        exact ⟨le_trans (le_trans (min_le_right sc _) (min_le_left vc M)) hsvc, hcut⟩
      · intro hV
        exact absurd (lt_trans hV hVa) (not_lt.mpr hah)
    · rw [if_neg hcut]
      push_neg at hcut
      have hmin2 : min (min hi sc) (min sc s) = min hi (min sc s) := by
        rw [min_assoc, ← min_assoc sc sc s, min_self]
      rw [hmin2]
      have ihspec := ih (min sc s) (fun c' hc' => hcs c' (List.mem_cons_of_mem c hc')) hcut
      by_cases hvca : vc < alpha
      · exact absurd (lt_of_le_of_lt (min_le_right sc s) (hC.2.1 hvca).2)
          (not_lt.mpr hcut)
      · push_neg at hvca
        by_cases hva : min hi sc < vc
        · obtain ⟨hsa, hvs⟩ := hC.2.2 hva
          refine ⟨?_, ?_, ?_⟩
          · intro h1 h2
            have hVV : min (min sc s) M = min sc (min vc M) := by
              by_cases hssc : sc ≤ s
              · rw [min_eq_left hssc, ← min_assoc, min_eq_left (le_trans hssc hvs)]
              · push_neg at hssc
                have hshi : hi < s := by
                  rcases min_choice hi sc with hch | hch
                  · rw [hch] at hsa; exact hsa
                  · rw [hch] at hsa; exact absurd hsa (not_lt.mpr (le_of_lt hssc))
                have hschi : hi < sc := lt_trans hshi hssc
                have hvchi : hi < vc := lt_of_lt_of_le hshi hvs
                have hMhi : M ≤ hi := by
                  by_contra hnM
                  push_neg at hnM
                  exact absurd h2 (not_le.mpr (lt_min hschi (lt_min hvchi hnM)))
                rw [min_eq_right (le_of_lt hssc), min_eq_right (le_trans hMhi (le_of_lt hshi)),
                  min_eq_right (le_trans hMhi (le_of_lt hvchi)),
                  min_eq_right (le_trans hMhi (le_of_lt hschi))]
            rw [hVV] at ihspec
            exact ihspec.1 h1 h2
          · intro hV
            have hMa : M < alpha := by
              by_contra hnM
              push_neg at hnM
              exact absurd hV (not_lt.mpr (le_min hsca
                (le_min (le_trans haminh (le_of_lt hva)) hnM)))
            have hVM : min sc (min vc M) = M := by
              rw [min_eq_right (le_trans (le_of_lt hMa) (le_trans haminh (le_of_lt hva))),
                min_eq_right (le_trans (le_of_lt hMa) hsca)]
            have hVM2 : min (min sc s) M = M := min_eq_right (le_trans (le_of_lt hMa) hcut)
            obtain ⟨hr1, hr2⟩ := ihspec.2.1 (by rw [hVM2]; exact hMa)
            rw [hVM2] at hr1
            rw [hVM]
            exact ⟨hr1, hr2⟩
          · intro hV
            have hsc_hi : hi < sc :=
              lt_of_lt_of_le hV (min_le_left sc _)
            have hs_hi : hi < s := by
              rcases min_choice hi sc with hch | hch
              · rw [hch] at hsa; exact hsa
              · rw [hch] at hsa; exact lt_trans hsc_hi hsa
            have hM_hi : hi < M :=
              lt_of_lt_of_le hV (le_trans (min_le_right sc _) (min_le_right vc M))
            obtain ⟨hr1, hr2⟩ := ihspec.2.2 (lt_min (lt_min hsc_hi hs_hi) hM_hi)
            refine ⟨hr1, ?_⟩
            have hVle : min (min sc s) M ≤ min sc (min vc M) :=
              le_min (le_trans (min_le_left _ M) (min_le_left sc s))
                (le_min (le_trans (min_le_left _ M) (le_trans (min_le_right sc s) hvs))
                  (min_le_right _ _))
            exact le_trans hr2 hVle
        · push_neg at hva
          have hse := hC.1 hvca hva
          have hVV : min (min sc s) M = min sc (min vc M) := by
            rw [hse, min_assoc]
          rw [hVV] at ihspec
          exact ihspec

theorem sizeOf_lt_of_mem_gtree {A : Type} {c : GTree A} {cs : List (GTree A)}
    (h : c ∈ cs) : sizeOf c < sizeOf cs := by
  induction cs with
  | nil => simp at h
  | cons x xs ih =>
    rcases List.mem_cons.mp h with h1 | h1
    · subst h1
      simp only [List.cons.sizeOf_spec]
      omega
    · have := ih h1
      simp only [List.cons.sizeOf_spec]
      omega

/-- The window contract of _alphabeta against minimax, for every tree. -/
theorem alphabeta_spec {A : Type} [LinearOrder A] [BoundedOrder A] :
    ∀ (t : GTree A) (lo hi : A), lo ≤ hi →
      ABSpec (minimax t) (alphabeta t lo hi) lo hi := by
  have H : ∀ (n : Nat) (t : GTree A), sizeOf t ≤ n →
      ∀ lo hi : A, lo ≤ hi → ABSpec (minimax t) (alphabeta t lo hi) lo hi := by
    intro n
    induction n with
    | zero =>
      intro t ht
      exfalso
      cases t with
      | leaf v => simp [GTree.leaf.sizeOf_spec] at ht
      | node mx cs => simp [GTree.node.sizeOf_spec] at ht
    | succ n ihn =>
      intro t ht lo hi hlh
      cases t with
      | leaf v =>
        simp only [minimax, alphabeta]
        exact ⟨fun _ _ => rfl, fun h => ⟨le_rfl, h⟩, fun h => ⟨h, le_rfl⟩⟩
      | node mx cs =>
        have hcs : ∀ c ∈ cs, ∀ l h : A, l ≤ h →
            ABSpec (minimax c) (alphabeta c l h) l h := by
          intro c hc
          apply ihn c
          have h1 := sizeOf_lt_of_mem_gtree hc
          have h2 : sizeOf cs < sizeOf (GTree.node mx cs) := by
            simp only [GTree.node.sizeOf_spec]
            omega
          omega
        cases mx with
        | true =>
          simp only [minimax, alphabeta]
          have hspec := abMax_spec hi lo hlh cs ⊥ hcs bot_le
          rw [max_eq_right (bot_le : (⊥ : A) ≤ mmMax cs),
            max_eq_left (bot_le : (⊥ : A) ≤ lo)] at hspec
          exact hspec
        | false =>
          simp only [minimax, alphabeta]
          have hspec := abMin_spec lo hi hlh cs ⊤ hcs le_top
          rw [min_eq_right (le_top : mmMin cs ≤ (⊤ : A)),
            min_eq_left (le_top : hi ≤ (⊤ : A))] at hspec
          exact hspec
  exact fun t => H (sizeOf t) t le_rfl

/-- C5 claim: on every game tree (hence for every game state and every
fixed search depth, over the same move lists and the same leaf evaluation)
_alphabeta started with the full window (-inf, +inf) returns exactly the
plain unpruned minimax score: pruning never changes the returned value. -/
theorem alphabeta_eq_minimax {A : Type} [LinearOrder A] [BoundedOrder A]
    (t : GTree A) : alphabeta t ⊥ ⊤ = minimax t :=
  (alphabeta_spec t ⊥ ⊤ bot_le).1 bot_le le_top
